import Mathlib

/-!
Verification of the clause-normalisation analysis of the souffle front end
(`src/ast/analysis/ClauseNormalisation.cpp`).

The AST fragment consumed by the normaliser is embedded as a family of
mutually inductive types; the `NormalisedClause` construction is embedded as
state-passing functions that mirror the C++ member functions
`NormalisedClause::NormalisedClause`, `addClauseAtom`, `addClauseBodyLiteral`
and `normaliseArgument` line by line.  The C++ `static size_t countUnnamed`
inside `normaliseArgument` is function-local static storage, i.e. a
process-global counter; it is modelled by threading its value through every
normalisation (field `countUnnamed` of the state, initialised from the
ambient global value, never reset per clause).
-/

namespace Souffle

/-- The aggregate operators (`AggregateOp`, streamed into the type signature
by `normaliseArgument`).  Modelled from the spec: the header defining the
enumeration is outside the analysed sources; the spec fixes
`op ∈ {min,max,count,sum}` and the printed names. -/
inductive AggregateOp : Type where
  | min
  | max
  | count
  | sum
deriving DecidableEq

/-- Printed form of an aggregate operator, as streamed by
`aggrTypeSignature << ":" << aggr->getOperator()`. -/
def aggrOpSymbol : AggregateOp → String
  | AggregateOp.min => "min"
  | AggregateOp.max => "max"
  | AggregateOp.count => "count"
  | AggregateOp.sum => "sum"

/-- The binary-constraint operators.  Modelled from the spec: the header
defining `BinaryConstraintOp` and `toBinaryConstraintSymbol` is outside the
analysed sources; the spec fixes a comparison-operator enumeration, each
with a printable symbol. -/
inductive BinaryConstraintOp : Type where
  | eq
  | ne
  | lt
  | le
  | gt
  | ge
deriving DecidableEq

/-- Printable symbol of a binary-constraint operator
(`toBinaryConstraintSymbol`). -/
def toBinaryConstraintSymbol : BinaryConstraintOp → String
  | BinaryConstraintOp.eq => "="
  | BinaryConstraintOp.ne => "!="
  | BinaryConstraintOp.lt => "<"
  | BinaryConstraintOp.le => "<="
  | BinaryConstraintOp.gt => ">"
  | BinaryConstraintOp.ge => ">="

mutual

/-- The argument nodes of the AST fragment seen by the normaliser
(`AstArgument` sub-hierarchy).  Argument kinds the normaliser does not
handle (functors, records, type casts, counters, subroutine arguments) all
fall into the final `else` branch of `normaliseArgument` and are never
recursed into, so they are represented by the single leaf
`unhandledArg` carrying their printed form. -/
inductive AstArgument : Type where
  | stringConstant (value : String)
  | numericConstant (value : Int)
  | nilConstant
  | var (name : String)
  | unnamedVariable
  | aggregator (op : AggregateOp) (target : AstAggTarget) (body : AstLiteralList)
  | unhandledArg (printed : String)

/-- The optional target expression of an aggregator
(`aggr->getTargetExpression()`, a possibly null pointer). -/
inductive AstAggTarget : Type where
  | none
  | some (arg : AstArgument)

/-- An argument vector (`std::vector<AstArgument*>`). -/
inductive AstArgList : Type where
  | nil
  | cons (head : AstArgument) (tail : AstArgList)

/-- The literal nodes (`AstLiteral` sub-hierarchy).  An atom's qualified
name is a component list (`AstQualifiedName`).  A negation stores its inner
atom (`neg->getAtom()`).  Literal kinds the normaliser does not handle fall
into the final `else` branch of `addClauseBodyLiteral` and are represented
by `unhandledLit` carrying their printed form (`toString(*lit)`). -/
inductive AstLiteral : Type where
  | atom (name : List String) (args : AstArgList)
  | negation (name : List String) (args : AstArgList)
  | binaryConstraint (op : BinaryConstraintOp) (lhs rhs : AstArgument)
  | unhandledLit (printed : String)

/-- A literal vector (`std::vector<AstLiteral*>`). -/
inductive AstLiteralList : Type where
  | nil
  | cons (head : AstLiteral) (tail : AstLiteralList)

end

/-- A clause: head atom (name and arguments) plus body literals.  Only the
head's argument vector is consumed by the normaliser
(`clause->getHead()->getArguments()`). -/
structure AstClause : Type where
  headName : List String
  headArgs : AstArgList
  body : AstLiteralList

/-- One element of a `NormalisedClause`: a qualified name (component list,
`prepend` is list cons) and a parameter vector. -/
structure NormElement : Type where
  name : List String
  params : List String
deriving DecidableEq

/-- The mutable state of a `NormalisedClause` under construction, plus the
threaded value of the process-global `static size_t countUnnamed`.  The two
`std::set<std::string>` members (`constants` and `variables`, the latter
named `varSet` here because `variables` is reserved) are modelled as their
member lists in insertion order with duplicate inserts ignored; every
property stated about them is a membership property, insensitive to member
order. -/
structure NormState : Type where
  fullyNormalised : Bool
  aggrScopeCount : Nat
  clauseElements : List NormElement
  constants : List String
  varSet : List String
  countUnnamed : Nat
deriving DecidableEq

/-- `std::set::insert`: a duplicate insert leaves the set unchanged. -/
def setInsert (x : String) (l : List String) : List String :=
  if x ∈ l then l else l ++ [x]

/-- The scope token `"@min:scope:" << k`. -/
def scopeTok (k : Nat) : String := "@min:scope:" ++ Nat.repr k

/-- The unnamed-variable token `"@min:unnamed:" << k`. -/
def unnamedTok (k : Nat) : String := "@min:unnamed:" ++ Nat.repr k

/-- Printed form of a string constant (`operator<<` on `AstStringConstant`
prints the text double-quoted). -/
def printedStringConstant (v : String) : String := "\"" ++ v ++ "\""

/-- Append one element to the element vector
(`clauseElements.push_back`). -/
def pushElem (e : NormElement) (s : NormState) : NormState :=
  { s with clauseElements := s.clauseElements ++ [e] }

/-- The first two statements of the aggregator branch of
`normaliseArgument`: increment the aggregator scope counter and insert the
fresh scope token into the variable set. -/
def aggBump (s : NormState) : NormState :=
  { s with aggrScopeCount := s.aggrScopeCount + 1,
           varSet := setInsert (scopeTok (s.aggrScopeCount + 1)) s.varSet }

mutual

/-- `NormalisedClause::normaliseArgument`, with the state threaded
explicitly.  Returns the updated state and the token of the argument. -/
def normaliseArgument : NormState → AstArgument → NormState × String
  | s, AstArgument.stringConstant v =>
      let tok := "@min:cst:str" ++ printedStringConstant v
      ({ s with constants := setInsert tok s.constants }, tok)
  | s, AstArgument.numericConstant v =>
      let tok := "@min:cst:num:" ++ toString v
      ({ s with constants := setInsert tok s.constants }, tok)
  | s, AstArgument.nilConstant =>
      ({ s with constants := setInsert "@min:cst:nil" s.constants }, "@min:cst:nil")
  | s, AstArgument.var n =>
      ({ s with varSet := setInsert n s.varSet }, n)
  | s, AstArgument.unnamedVariable =>
      let tok := unnamedTok s.countUnnamed
      ({ s with varSet := setInsert tok s.varSet,
                countUnnamed := s.countUnnamed + 1 }, tok)
  | s, AstArgument.aggregator op target body =>
      let scopeID := scopeTok (s.aggrScopeCount + 1)
      let r2 := normaliseAggTarget (aggBump s) target
      let s3 := pushElem ⟨["@min:aggrtype:" ++ aggrOpSymbol op], scopeID :: r2.2⟩ r2.1
      let s4 := addBodyLiterals scopeID s3 body
      (s4, scopeID)
  | s, AstArgument.unhandledArg _ =>
      ({ s with fullyNormalised := false }, "@min:unhandled:arg")

/-- The optional target expression of an aggregator: the token list that is
appended after the scope identifier in the type-signature element. -/
def normaliseAggTarget : NormState → AstAggTarget → NormState × List String
  | s, AstAggTarget.none => (s, [])
  | s, AstAggTarget.some t =>
      let r := normaliseArgument s t
      (r.1, [r.2])

/-- Normalise an argument vector left to right, threading the state
(the loops pushing `normaliseArgument(arg)` in the constructor and in
`addClauseAtom`). -/
def normaliseArgList : NormState → AstArgList → NormState × List String
  | s, AstArgList.nil => (s, [])
  | s, AstArgList.cons a rest =>
      let r1 := normaliseArgument s a
      let r2 := normaliseArgList r1.1 rest
      (r2.1, r1.2 :: r2.2)

/-- `NormalisedClause::addClauseBodyLiteral`.  The atom and negation cases
perform `addClauseAtom` (prepend the qualifier to the atom name, normalise
the arguments after the scope identifier, push the element), inlined here;
the standalone wrapper `addClauseAtom` below is definitionally equal to
them. -/
def addClauseBodyLiteral (scopeID : String) : NormState → AstLiteral → NormState
  | s, AstLiteral.atom n args =>
      let r := normaliseArgList s args
      pushElem ⟨"@min:atom" :: n, scopeID :: r.2⟩ r.1
  | s, AstLiteral.negation n args =>
      let r := normaliseArgList s args
      pushElem ⟨"@min:neg" :: n, scopeID :: r.2⟩ r.1
  | s, AstLiteral.binaryConstraint op lhs rhs =>
      let r1 := normaliseArgument s lhs
      let r2 := normaliseArgument r1.1 rhs
      pushElem ⟨["@min:operator", toBinaryConstraintSymbol op],
                [scopeID, r1.2, r2.2]⟩ r2.1
  | s, AstLiteral.unhandledLit printed =>
      let s1 := { s with fullyNormalised := false }
      pushElem ⟨["@min:unhandled:lit:" ++ scopeID, printed], []⟩ s1

/-- The loop over body literals (constructor body loop, and the loop over
an aggregator's body literals). -/
def addBodyLiterals (scopeID : String) : NormState → AstLiteralList → NormState
  | s, AstLiteralList.nil => s
  | s, AstLiteralList.cons l rest =>
      addBodyLiterals scopeID (addClauseBodyLiteral scopeID s l) rest

end

/-- `NormalisedClause::addClauseAtom` as a standalone function. -/
def addClauseAtom (qualifier scopeID : String) (name : List String)
    (s : NormState) (args : AstArgList) : NormState :=
  let r := normaliseArgList s args
  pushElem ⟨qualifier :: name, scopeID :: r.2⟩ r.1

/-- The state of a freshly constructed `NormalisedClause`:
`fullyNormalised` starts `true`, both vectors and both sets start empty,
the member `aggrScopeCount` starts at `0`; the global unnamed counter has
the ambient value `g`. -/
def initNormState (g : Nat) : NormState := ⟨true, 0, [], [], [], g⟩

/-- `NormalisedClause::NormalisedClause(const AstClause*)`: normalise the
head arguments, push the `@min:head` element, then add every body literal
under scope `"@min:scope:0"`. -/
def normClause (g : Nat) (c : AstClause) : NormState :=
  let r := normaliseArgList (initNormState g) c.headArgs
  let s2 := pushElem ⟨["@min:head"], r.2⟩ r.1
  addBodyLiterals "@min:scope:0" s2 c.body

/-- Convert a meta-level list of literals into a literal vector. -/
def litsOfList : List AstLiteral → AstLiteralList
  | [] => AstLiteralList.nil
  | l :: rest => AstLiteralList.cons l (litsOfList rest)

/-- The meta-level list of a literal vector. -/
def litsToList : AstLiteralList → List AstLiteral
  | AstLiteralList.nil => []
  | AstLiteralList.cons l rest => l :: litsToList rest

/-- Convert a meta-level list of arguments into an argument vector. -/
def argsOfList : List AstArgument → AstArgList
  | [] => AstArgList.nil
  | a :: rest => AstArgList.cons a (argsOfList rest)

/-- The meta-level list of an argument vector. -/
def argsToList : AstArgList → List AstArgument
  | AstArgList.nil => []
  | AstArgList.cons a rest => a :: argsToList rest

/-- The registry of `ClauseNormalisationAnalysis`: one entry per clause
identity.  Clause identity (`const AstClause*`) is modelled as a natural
number tag; distinct live clause objects have distinct tags. -/
abbrev Registry : Type := List (Nat × NormState)

/-- `contains(normalisations, clause)`: is the clause identity already a
key of the registry. -/
def registryContains (reg : Registry) (cid : Nat) : Bool :=
  decide (cid ∈ List.map Prod.fst reg)

/-- `ClauseNormalisationAnalysis::run`: for every clause of the program, in
order, assert that it has not been processed yet and store its
`NormalisedClause`.  A firing of the `clause already processed` assertion
is modelled as `Except.error`.  The process-global unnamed counter `g` is
threaded through the per-clause constructions and returned. -/
def runAnalysis (g : Nat) (reg : Registry) :
    List (Nat × AstClause) → Except Unit (Registry × Nat)
  | [] => Except.ok (reg, g)
  | (cid, c) :: rest =>
      if registryContains reg cid then Except.error ()
      else
        let n := normClause g c
        runAnalysis n.countUnnamed (reg ++ [(cid, n)]) rest

@[simp] theorem pushElem_fullyNormalised (e : NormElement) (s : NormState) :
    (pushElem e s).fullyNormalised = s.fullyNormalised := rfl

@[simp] theorem pushElem_aggrScopeCount (e : NormElement) (s : NormState) :
    (pushElem e s).aggrScopeCount = s.aggrScopeCount := rfl

@[simp] theorem pushElem_clauseElements (e : NormElement) (s : NormState) :
    (pushElem e s).clauseElements = s.clauseElements ++ [e] := rfl

@[simp] theorem pushElem_constants (e : NormElement) (s : NormState) :
    (pushElem e s).constants = s.constants := rfl

@[simp] theorem pushElem_varSet (e : NormElement) (s : NormState) :
    (pushElem e s).varSet = s.varSet := rfl

@[simp] theorem pushElem_countUnnamed (e : NormElement) (s : NormState) :
    (pushElem e s).countUnnamed = s.countUnnamed := rfl

@[simp] theorem aggBump_fullyNormalised (s : NormState) :
    (aggBump s).fullyNormalised = s.fullyNormalised := rfl

@[simp] theorem aggBump_aggrScopeCount (s : NormState) :
    (aggBump s).aggrScopeCount = s.aggrScopeCount + 1 := rfl

@[simp] theorem aggBump_clauseElements (s : NormState) :
    (aggBump s).clauseElements = s.clauseElements := rfl

@[simp] theorem aggBump_constants (s : NormState) :
    (aggBump s).constants = s.constants := rfl

@[simp] theorem aggBump_varSet (s : NormState) :
    (aggBump s).varSet = setInsert (scopeTok (s.aggrScopeCount + 1)) s.varSet := rfl

@[simp] theorem aggBump_countUnnamed (s : NormState) :
    (aggBump s).countUnnamed = s.countUnnamed := rfl

@[simp] theorem mem_setInsert (x y : String) (l : List String) :
    x ∈ setInsert y l ↔ x = y ∨ x ∈ l := by
  unfold setInsert
  by_cases h : y ∈ l
  · simp only [h, if_true]
    constructor
    · intro hx
      exact Or.inr hx
    · intro hx
      cases hx with
      | inl he => exact he ▸ h
      | inr hx => exact hx
  · simp [h, List.mem_append, or_comm]

theorem subset_setInsert (y : String) (l : List String) : l ⊆ setInsert y l := by
  intro x hx
  simp [hx]

theorem self_mem_setInsert (y : String) (l : List String) : y ∈ setInsert y l := by
  simp

mutual

theorem sticky_normaliseArgument (a : AstArgument) (s : NormState)
    (h : s.fullyNormalised = false) :
    (normaliseArgument s a).1.fullyNormalised = false := by
  cases a with
  | stringConstant v => simpa [normaliseArgument] using h
  | numericConstant v => simpa [normaliseArgument] using h
  | nilConstant => simpa [normaliseArgument] using h
  | var n => simpa [normaliseArgument] using h
  | unnamedVariable => simpa [normaliseArgument] using h
  | aggregator op target body =>
      simp only [normaliseArgument]
      exact sticky_addBodyLiterals body _ _ (by
        simpa using sticky_normaliseAggTarget target (aggBump s) (by simpa using h))
  | unhandledArg p => simp [normaliseArgument]

theorem sticky_normaliseAggTarget (t : AstAggTarget) (s : NormState)
    (h : s.fullyNormalised = false) :
    (normaliseAggTarget s t).1.fullyNormalised = false := by
  cases t with
  | none => simpa [normaliseAggTarget] using h
  | some a =>
      simp only [normaliseAggTarget]
      exact sticky_normaliseArgument a s h

theorem sticky_normaliseArgList (args : AstArgList) (s : NormState)
    (h : s.fullyNormalised = false) :
    (normaliseArgList s args).1.fullyNormalised = false := by
  cases args with
  | nil => simpa [normaliseArgList] using h
  | cons a rest =>
      simp only [normaliseArgList]
      exact sticky_normaliseArgList rest _ (sticky_normaliseArgument a s h)

theorem sticky_addClauseBodyLiteral (l : AstLiteral) (scopeID : String)
    (s : NormState) (h : s.fullyNormalised = false) :
    (addClauseBodyLiteral scopeID s l).fullyNormalised = false := by
  cases l with
  | atom n args =>
      simp only [addClauseBodyLiteral, pushElem_fullyNormalised]
      exact sticky_normaliseArgList args s h
  | negation n args =>
      simp only [addClauseBodyLiteral, pushElem_fullyNormalised]
      exact sticky_normaliseArgList args s h
  | binaryConstraint op lhs rhs =>
      simp only [addClauseBodyLiteral, pushElem_fullyNormalised]
      exact sticky_normaliseArgument rhs _ (sticky_normaliseArgument lhs s h)
  | unhandledLit p => simp [addClauseBodyLiteral]

theorem sticky_addBodyLiterals (ls : AstLiteralList) (scopeID : String)
    (s : NormState) (h : s.fullyNormalised = false) :
    (addBodyLiterals scopeID s ls).fullyNormalised = false := by
  cases ls with
  | nil => simpa [addBodyLiterals] using h
  | cons l rest =>
      simp only [addBodyLiterals]
      exact sticky_addBodyLiterals rest scopeID _
        (sticky_addClauseBodyLiteral l scopeID s h)

end

/-!  Injectivity of the decimal rendering `Nat.repr`, used to separate the
numbered tokens produced by the normaliser.  -/

theorem toDigitsCore_ten_eq (f : Nat) :
    ∀ (n : Nat) (acc : List Char), n < 10 ^ f → 0 < f →
      Nat.toDigitsCore 10 f n acc =
        (if n = 0 then ['0']
         else ((Nat.digits 10 n).map Nat.digitChar).reverse) ++ acc := by
  induction f with
  | zero =>
      intro n acc _ h0
      exact absurd h0 (by omega)
  | succ f ih =>
      intro n acc hlt _
      by_cases hn : n = 0
      · subst hn
        simp [Nat.toDigitsCore]
        rfl
      · by_cases hdiv : n / 10 = 0
        · have hn10 : n < 10 := by
            rcases Nat.div_eq_zero_iff (by norm_num) |>.mp hdiv with h
            exact h
          have hmod : n % 10 = n := Nat.mod_eq_of_lt hn10
          simp only [Nat.toDigitsCore, hdiv, if_true, if_neg hn]
          rw [Nat.digits_def' (b := 10) (by norm_num) (Nat.pos_of_ne_zero hn), hdiv]
          simp [hmod]
        · have hf : 0 < f := by
            rcases Nat.eq_zero_or_pos f with h0 | h0
            · subst h0
              have : n < 10 := by simpa using hlt
              exact absurd hdiv (by omega)
            · exact h0
          have hlt' : n / 10 < 10 ^ f := by
            rw [Nat.div_lt_iff_lt_mul (by norm_num)]
            calc n < 10 ^ (f + 1) := hlt
              _ = 10 ^ f * 10 := by ring
          have hrec := ih (n / 10) (Nat.digitChar (n % 10) :: acc) hlt' hf
          simp only [Nat.toDigitsCore, hdiv, if_false]
          rw [hrec, if_neg hdiv]
          rw [Nat.digits_def' (b := 10) (by norm_num) (Nat.pos_of_ne_zero hn)]
          simp [hn, List.append_assoc]

theorem natRepr_eq (n : Nat) :
    Nat.repr n =
      (if n = 0 then ['0']
       else ((Nat.digits 10 n).map Nat.digitChar).reverse).asString := by
  have hlt : n < 10 ^ (n + 1) :=
    lt_of_lt_of_le (Nat.lt_pow_self (by norm_num) n)
      (Nat.pow_le_pow_right (by norm_num) (Nat.le_succ n))
  show (Nat.toDigitsCore 10 (n + 1) n []).asString = _
  rw [toDigitsCore_ten_eq (n + 1) n [] hlt (Nat.succ_pos n)]
  simp

theorem digitChar_inj_lt (a b : Nat) (ha : a < 10) (hb : b < 10)
    (h : Nat.digitChar a = Nat.digitChar b) : a = b := by
  have key : ∀ x < 10, ∀ y < 10, Nat.digitChar x = Nat.digitChar y → x = y := by decide
  exact key a ha b hb h

theorem digitChar_map_inj :
    ∀ (l₁ l₂ : List Nat), (∀ d ∈ l₁, d < 10) → (∀ d ∈ l₂, d < 10) →
      l₁.map Nat.digitChar = l₂.map Nat.digitChar → l₁ = l₂ := by
  intro l₁
  induction l₁ with
  | nil =>
      intro l₂ _ _ h
      cases l₂ with
      | nil => rfl
      | cons b t => exact absurd h (by simp)
  | cons a t ih =>
      intro l₂ h₁ h₂ h
      cases l₂ with
      | nil => exact absurd h (by simp)
      | cons b t' =>
          simp only [List.map_cons, List.cons.injEq] at h
          have hab : a = b :=
            digitChar_inj_lt a b (h₁ a (by simp)) (h₂ b (by simp)) h.1
          have ht : t = t' :=
            ih t' (fun d hd => h₁ d (by simp [hd])) (fun d hd => h₂ d (by simp [hd])) h.2
          rw [hab, ht]

theorem natRepr_injective : Function.Injective Nat.repr := by
  intro m n h
  rw [natRepr_eq, natRepr_eq] at h
  have h' : (if m = 0 then ['0']
      else ((Nat.digits 10 m).map Nat.digitChar).reverse) =
      (if n = 0 then ['0']
      else ((Nat.digits 10 n).map Nat.digitChar).reverse) := by
    have hd := congrArg String.data h
    simpa [List.asString] using hd
  have zero_case : ∀ k : Nat, k ≠ 0 →
      ['0'] ≠ ((Nat.digits 10 k).map Nat.digitChar).reverse := by
    intro k hk hcontr
    have hmap : (Nat.digits 10 k).map Nat.digitChar = ['0'] := by
      have := congrArg List.reverse hcontr
      simpa using this.symm
    have hdig : Nat.digits 10 k = [0] := by
      have hb : ∀ d ∈ Nat.digits 10 k, d < 10 := fun d hd =>
        Nat.digits_lt_base (by norm_num) hd
      have : Nat.digits 10 k = [0] :=
        digitChar_map_inj (Nat.digits 10 k) [0] hb (by norm_num) (by simpa using hmap)
      exact this
    have hzero : k = Nat.ofDigits 10 [0] := by
      rw [← hdig, Nat.ofDigits_digits]
    simp [Nat.ofDigits] at hzero
    exact hk hzero
  by_cases hm : m = 0 <;> by_cases hn : n = 0
  · rw [hm, hn]
  · rw [if_pos hm, if_neg hn] at h'
    exact absurd h' (zero_case n hn)
  · rw [if_neg hm, if_pos hn] at h'
    exact absurd h'.symm (zero_case m hm)
  · rw [if_neg hm, if_neg hn] at h'
    have hmap := List.reverse_injective h'
    have hdig : Nat.digits 10 m = Nat.digits 10 n :=
      digitChar_map_inj _ _
        (fun d hd => Nat.digits_lt_base (by norm_num) hd)
        (fun d hd => Nat.digits_lt_base (by norm_num) hd) hmap
    calc m = Nat.ofDigits 10 (Nat.digits 10 m) := (Nat.ofDigits_digits 10 m).symm
      _ = Nat.ofDigits 10 (Nat.digits 10 n) := by rw [hdig]
      _ = n := Nat.ofDigits_digits 10 n

theorem string_append_left_cancel {p a b : String} (h : p ++ a = p ++ b) :
    a = b := by
  have hd := congrArg String.data h
  rw [String.data_append, String.data_append] at hd
  have h2 := List.append_cancel_left hd
  cases a
  cases b
  exact congrArg String.mk (by simpa using h2)

theorem scopeTok_inj {k j : Nat} (h : scopeTok k = scopeTok j) : k = j :=
  natRepr_injective (string_append_left_cancel h)

theorem scopeTok_ne {k j : Nat} (h : k ≠ j) : scopeTok k ≠ scopeTok j :=
  fun hc => h (scopeTok_inj hc)

/-- Every element of `d` whose name is a type-signature name
`["@min:aggrtype:" ++ op]` carries as first parameter a scope token whose
index lies strictly above `lo` and at most `hi`. -/
def AggrBound (lo hi : Nat) (d : List NormElement) : Prop :=
  ∀ e ∈ d, ∀ op, e.name = ["@min:aggrtype:" ++ op] →
    ∃ k rest, e.params = scopeTok k :: rest ∧ lo < k ∧ k ≤ hi

theorem AggrBound.nil (lo hi : Nat) : AggrBound lo hi [] := by
  intro e he
  exact absurd he (by simp)

theorem AggrBound.widen {lo hi lo' hi' : Nat} {d : List NormElement}
    (h : AggrBound lo hi d) (hlo : lo' ≤ lo) (hhi : hi ≤ hi') :
    AggrBound lo' hi' d := by
  intro e he op hname
  obtain ⟨k, rest, hp, h1, h2⟩ := h e he op hname
  exact ⟨k, rest, hp, by omega, by omega⟩

theorem AggrBound.append {lo m hi : Nat} {d₁ d₂ : List NormElement}
    (h₁ : AggrBound lo m d₁) (h₂ : AggrBound m hi d₂)
    (hlm : lo ≤ m) (hmh : m ≤ hi) :
    AggrBound lo hi (d₁ ++ d₂) := by
  intro e he op hname
  rcases List.mem_append.mp he with h | h
  · exact (h₁.widen (le_refl lo) hmh) e h op hname
  · exact (h₂.widen hlm (le_refl hi)) e h op hname

theorem AggrBound.single_not {lo hi : Nat} {e : NormElement}
    (h : ∀ op, e.name ≠ ["@min:aggrtype:" ++ op]) :
    AggrBound lo hi [e] := by
  intro e' he' op hname
  rw [List.mem_singleton] at he'
  subst he'
  exact absurd hname (h op)

theorem AggrBound.union {lo hi : Nat} {d₁ d₂ : List NormElement}
    (h₁ : AggrBound lo hi d₁) (h₂ : AggrBound lo hi d₂) :
    AggrBound lo hi (d₁ ++ d₂) := by
  intro e he op hname
  rcases List.mem_append.mp he with h | h
  · exact h₁ e h op hname
  · exact h₂ e h op hname

theorem AggrBound.single_scope {lo hi k : Nat} (nm : List String)
    (rest : List String) (h1 : lo < k) (h2 : k ≤ hi) :
    AggrBound lo hi [⟨nm, scopeTok k :: rest⟩] := by
  intro e he op hname
  rw [List.mem_singleton] at he
  subst he
  exact ⟨k, rest, rfl, h1, h2⟩

theorem qual_cons_ne_aggrType {q : String} (hq : q.length < 14)
    (r : List String) (op : String) :
    q :: r ≠ ["@min:aggrtype:" ++ op] := by
  intro h
  rw [List.cons.injEq] at h
  have hlen := congrArg String.length h.1
  rw [String.length_append] at hlen
  have h14 : ("@min:aggrtype:" : String).length = 14 := by decide
  omega

mutual

theorem elems_normaliseArgument (a : AstArgument) (s : NormState) :
    ∃ d, (normaliseArgument s a).1.clauseElements = s.clauseElements ++ d ∧
      s.aggrScopeCount ≤ (normaliseArgument s a).1.aggrScopeCount ∧
      AggrBound s.aggrScopeCount (normaliseArgument s a).1.aggrScopeCount d := by
  cases a with
  | stringConstant v =>
      exact ⟨[], by simp [normaliseArgument], le_refl _, AggrBound.nil _ _⟩
  | numericConstant v =>
      exact ⟨[], by simp [normaliseArgument], le_refl _, AggrBound.nil _ _⟩
  | nilConstant =>
      exact ⟨[], by simp [normaliseArgument], le_refl _, AggrBound.nil _ _⟩
  | var n =>
      exact ⟨[], by simp [normaliseArgument], le_refl _, AggrBound.nil _ _⟩
  | unnamedVariable =>
      exact ⟨[], by simp [normaliseArgument], le_refl _, AggrBound.nil _ _⟩
  | unhandledArg p =>
      exact ⟨[], by simp [normaliseArgument], le_refl _, AggrBound.nil _ _⟩
  | aggregator op target body =>
      obtain ⟨dt, hdt, hct, hbt⟩ := elems_normaliseAggTarget target (aggBump s)
      obtain ⟨db, hdb, hcb, hbb⟩ := elems_addBodyLiterals body
        (scopeTok (s.aggrScopeCount + 1))
        (pushElem ⟨["@min:aggrtype:" ++ aggrOpSymbol op],
          scopeTok (s.aggrScopeCount + 1) ::
            (normaliseAggTarget (aggBump s) target).2⟩
          (normaliseAggTarget (aggBump s) target).1)
      simp only [aggBump_clauseElements, aggBump_aggrScopeCount] at hdt hct hbt
      simp only [pushElem_clauseElements, pushElem_aggrScopeCount] at hdb hcb hbb
      refine ⟨dt ++ [⟨["@min:aggrtype:" ++ aggrOpSymbol op],
          scopeTok (s.aggrScopeCount + 1) ::
            (normaliseAggTarget (aggBump s) target).2⟩] ++ db, ?_, ?_, ?_⟩
      · simp only [normaliseArgument, hdb, hdt, List.append_assoc]
      · simp only [normaliseArgument]
        omega
      · simp only [normaliseArgument]
        refine AggrBound.union (AggrBound.union (hbt.widen (by omega) (by omega)) ?_)
          (hbb.widen (by omega) (by omega))
        exact AggrBound.single_scope _ _ (by omega) (by omega)

theorem elems_normaliseAggTarget (t : AstAggTarget) (s : NormState) :
    ∃ d, (normaliseAggTarget s t).1.clauseElements = s.clauseElements ++ d ∧
      s.aggrScopeCount ≤ (normaliseAggTarget s t).1.aggrScopeCount ∧
      AggrBound s.aggrScopeCount (normaliseAggTarget s t).1.aggrScopeCount d := by
  cases t with
  | none => exact ⟨[], by simp [normaliseAggTarget], le_refl _, AggrBound.nil _ _⟩
  | some a =>
      obtain ⟨d, hd, hc, hb⟩ := elems_normaliseArgument a s
      exact ⟨d, by simpa [normaliseAggTarget] using hd,
        by simpa [normaliseAggTarget] using hc,
        by simpa [normaliseAggTarget] using hb⟩

theorem elems_normaliseArgList (args : AstArgList) (s : NormState) :
    ∃ d, (normaliseArgList s args).1.clauseElements = s.clauseElements ++ d ∧
      s.aggrScopeCount ≤ (normaliseArgList s args).1.aggrScopeCount ∧
      AggrBound s.aggrScopeCount (normaliseArgList s args).1.aggrScopeCount d := by
  cases args with
  | nil => exact ⟨[], by simp [normaliseArgList], le_refl _, AggrBound.nil _ _⟩
  | cons a rest =>
      obtain ⟨d₁, hd₁, hc₁, hb₁⟩ := elems_normaliseArgument a s
      obtain ⟨d₂, hd₂, hc₂, hb₂⟩ := elems_normaliseArgList rest (normaliseArgument s a).1
      refine ⟨d₁ ++ d₂, ?_, ?_, ?_⟩
      · simp only [normaliseArgList, hd₂, hd₁, List.append_assoc]
      · simp only [normaliseArgList]
        omega
      · simp only [normaliseArgList]
        exact hb₁.append hb₂ hc₁ hc₂

theorem elems_addClauseBodyLiteral (l : AstLiteral) (scopeID : String)
    (s : NormState) :
    ∃ d, (addClauseBodyLiteral scopeID s l).clauseElements =
        s.clauseElements ++ d ∧
      s.aggrScopeCount ≤ (addClauseBodyLiteral scopeID s l).aggrScopeCount ∧
      AggrBound s.aggrScopeCount (addClauseBodyLiteral scopeID s l).aggrScopeCount d := by
  cases l with
  | atom n args =>
      obtain ⟨d, hd, hc, hb⟩ := elems_normaliseArgList args s
      refine ⟨d ++ [⟨"@min:atom" :: n, scopeID :: (normaliseArgList s args).2⟩], ?_, ?_, ?_⟩
      · simp only [addClauseBodyLiteral, pushElem_clauseElements, hd, List.append_assoc]
      · simpa only [addClauseBodyLiteral, pushElem_aggrScopeCount] using hc
      · simp only [addClauseBodyLiteral, pushElem_aggrScopeCount]
        exact hb.append
          (AggrBound.single_not fun op => qual_cons_ne_aggrType (by decide) _ op)
          hc (le_refl _)
  | negation n args =>
      obtain ⟨d, hd, hc, hb⟩ := elems_normaliseArgList args s
      refine ⟨d ++ [⟨"@min:neg" :: n, scopeID :: (normaliseArgList s args).2⟩], ?_, ?_, ?_⟩
      · simp only [addClauseBodyLiteral, pushElem_clauseElements, hd, List.append_assoc]
      · simpa only [addClauseBodyLiteral, pushElem_aggrScopeCount] using hc
      · simp only [addClauseBodyLiteral, pushElem_aggrScopeCount]
        exact hb.append
          (AggrBound.single_not fun op => qual_cons_ne_aggrType (by decide) _ op)
          hc (le_refl _)
  | binaryConstraint op lhs rhs =>
      obtain ⟨d₁, hd₁, hc₁, hb₁⟩ := elems_normaliseArgument lhs s
      obtain ⟨d₂, hd₂, hc₂, hb₂⟩ := elems_normaliseArgument rhs (normaliseArgument s lhs).1
      refine ⟨d₁ ++ d₂ ++ [⟨["@min:operator", toBinaryConstraintSymbol op],
        [scopeID, (normaliseArgument s lhs).2,
          (normaliseArgument (normaliseArgument s lhs).1 rhs).2]⟩], ?_, ?_, ?_⟩
      · simp only [addClauseBodyLiteral, pushElem_clauseElements, hd₂, hd₁,
          List.append_assoc]
      · simp only [addClauseBodyLiteral, pushElem_aggrScopeCount]
        omega
      · simp only [addClauseBodyLiteral, pushElem_aggrScopeCount]
        exact ((hb₁.append hb₂ hc₁ hc₂).append
          (AggrBound.single_not fun op' => qual_cons_ne_aggrType (by decide) _ op')
          (le_trans hc₁ hc₂) (le_refl _))
  | unhandledLit p =>
      refine ⟨[⟨["@min:unhandled:lit:" ++ scopeID, p], []⟩], ?_, ?_, ?_⟩
      · simp [addClauseBodyLiteral]
      · simp [addClauseBodyLiteral]
      · simp only [addClauseBodyLiteral, pushElem_aggrScopeCount]
        refine AggrBound.single_not fun op => ?_
        intro h
        rw [List.cons.injEq] at h
        exact absurd h.2 (by simp)

theorem elems_addBodyLiterals (ls : AstLiteralList) (scopeID : String)
    (s : NormState) :
    ∃ d, (addBodyLiterals scopeID s ls).clauseElements = s.clauseElements ++ d ∧
      s.aggrScopeCount ≤ (addBodyLiterals scopeID s ls).aggrScopeCount ∧
      AggrBound s.aggrScopeCount (addBodyLiterals scopeID s ls).aggrScopeCount d := by
  cases ls with
  | nil => exact ⟨[], by simp [addBodyLiterals], le_refl _, AggrBound.nil _ _⟩
  | cons l rest =>
      obtain ⟨d₁, hd₁, hc₁, hb₁⟩ := elems_addClauseBodyLiteral l scopeID s
      obtain ⟨d₂, hd₂, hc₂, hb₂⟩ :=
        elems_addBodyLiterals rest scopeID (addClauseBodyLiteral scopeID s l)
      refine ⟨d₁ ++ d₂, ?_, ?_, ?_⟩
      · simp only [addBodyLiterals, hd₂, hd₁, List.append_assoc]
      · simp only [addBodyLiterals]
        omega
      · simp only [addBodyLiterals]
        exact hb₁.append hb₂ hc₁ hc₂

end

/-- `p` is a prefix of `t`, on the character data of the strings. -/
def strStartsWith (p t : String) : Bool := List.isPrefixOf p.data t.data

theorem strStartsWith_append {p q : String} (x : String)
    (h : strStartsWith p q = true) : strStartsWith p (q ++ x) = true := by
  unfold strStartsWith at h ⊢
  rw [String.data_append]
  rw [List.isPrefixOf_iff_prefix] at h ⊢
  exact h.trans (List.prefix_append _ _)

theorem strStartsWith_trans {p q t : String} (h₁ : strStartsWith p q = true)
    (h₂ : strStartsWith q t = true) : strStartsWith p t = true := by
  unfold strStartsWith at h₁ h₂ ⊢
  rw [List.isPrefixOf_iff_prefix] at h₁ h₂ ⊢
  exact h₁.trans h₂

theorem strStartsWith_append_of_not {p q : String} (x : String)
    (hlen : p.data.length ≤ q.data.length)
    (h : strStartsWith p q = false) : strStartsWith p (q ++ x) = false := by
  rw [Bool.eq_false_iff] at h ⊢
  intro hc
  apply h
  unfold strStartsWith at hc ⊢
  rw [String.data_append] at hc
  rw [List.isPrefixOf_iff_prefix] at hc ⊢
  rw [List.prefix_iff_eq_take] at hc ⊢
  rw [List.take_append_eq_append_take] at hc
  rw [Nat.sub_eq_zero_of_le hlen] at hc
  simpa using hc

mutual

/-- The names of the `AstVariable` nodes occurring in an argument
(the names `normaliseArgument` inserts raw into the variable set). -/
def argVarNames : AstArgument → List String
  | AstArgument.stringConstant _ => []
  | AstArgument.numericConstant _ => []
  | AstArgument.nilConstant => []
  | AstArgument.var n => [n]
  | AstArgument.unnamedVariable => []
  | AstArgument.aggregator _ target body =>
      aggTargetVarNames target ++ litsVarNames body
  | AstArgument.unhandledArg _ => []

/-- Variable names of an optional aggregate target. -/
def aggTargetVarNames : AstAggTarget → List String
  | AstAggTarget.none => []
  | AstAggTarget.some a => argVarNames a

/-- Variable names of an argument vector. -/
def argsVarNames : AstArgList → List String
  | AstArgList.nil => []
  | AstArgList.cons a rest => argVarNames a ++ argsVarNames rest

/-- Variable names of a literal. -/
def litVarNames : AstLiteral → List String
  | AstLiteral.atom _ args => argsVarNames args
  | AstLiteral.negation _ args => argsVarNames args
  | AstLiteral.binaryConstraint _ lhs rhs => argVarNames lhs ++ argVarNames rhs
  | AstLiteral.unhandledLit _ => []

/-- Variable names of a literal vector. -/
def litsVarNames : AstLiteralList → List String
  | AstLiteralList.nil => []
  | AstLiteralList.cons l rest => litVarNames l ++ litsVarNames rest

end

/-- All variable names occurring in a clause. -/
def clauseVarNames (c : AstClause) : List String :=
  argsVarNames c.headArgs ++ litsVarNames c.body

/-- A variable-set member is classified: a raw variable name drawn from
`names`, an unnamed-variable token, or an aggregator scope token with a
positive index. -/
def VarTokenForm (names : List String) (t : String) : Prop :=
  t ∈ names ∨ (∃ k, t = unnamedTok k) ∨ ∃ j, 1 ≤ j ∧ t = scopeTok j

theorem VarTokenForm.mono {names names' : List String} {t : String}
    (h : VarTokenForm names t) (hsub : names ⊆ names') :
    VarTokenForm names' t := by
  rcases h with h | h
  · exact Or.inl (hsub h)
  · exact Or.inr h

mutual

theorem varSub_normaliseArgument (a : AstArgument) (s : NormState) :
    s.varSet ⊆ (normaliseArgument s a).1.varSet := by
  cases a with
  | stringConstant v => simp [normaliseArgument, List.Subset.refl]
  | numericConstant v => simp [normaliseArgument, List.Subset.refl]
  | nilConstant => simp [normaliseArgument, List.Subset.refl]
  | var n => simpa [normaliseArgument] using subset_setInsert n s.varSet
  | unnamedVariable =>
      simpa [normaliseArgument] using subset_setInsert (unnamedTok s.countUnnamed) s.varSet
  | unhandledArg p => simp [normaliseArgument, List.Subset.refl]
  | aggregator op target body =>
      simp only [normaliseArgument]
      intro t ht
      apply varSub_addBodyLiterals body _ _
      show t ∈ (pushElem _ (normaliseAggTarget (aggBump s) target).1).varSet
      rw [pushElem_varSet]
      apply varSub_normaliseAggTarget target (aggBump s)
      rw [aggBump_varSet]
      exact subset_setInsert _ _ ht

theorem varSub_normaliseAggTarget (t : AstAggTarget) (s : NormState) :
    s.varSet ⊆ (normaliseAggTarget s t).1.varSet := by
  cases t with
  | none => simp [normaliseAggTarget, List.Subset.refl]
  | some a => simpa [normaliseAggTarget] using varSub_normaliseArgument a s

theorem varSub_normaliseArgList (args : AstArgList) (s : NormState) :
    s.varSet ⊆ (normaliseArgList s args).1.varSet := by
  cases args with
  | nil => simp [normaliseArgList, List.Subset.refl]
  | cons a rest =>
      simp only [normaliseArgList]
      exact (varSub_normaliseArgument a s).trans
        (varSub_normaliseArgList rest (normaliseArgument s a).1)

theorem varSub_addClauseBodyLiteral (l : AstLiteral) (scopeID : String)
    (s : NormState) : s.varSet ⊆ (addClauseBodyLiteral scopeID s l).varSet := by
  cases l with
  | atom n args =>
      simp only [addClauseBodyLiteral, pushElem_varSet]
      exact varSub_normaliseArgList args s
  | negation n args =>
      simp only [addClauseBodyLiteral, pushElem_varSet]
      exact varSub_normaliseArgList args s
  | binaryConstraint op lhs rhs =>
      simp only [addClauseBodyLiteral, pushElem_varSet]
      exact (varSub_normaliseArgument lhs s).trans
        (varSub_normaliseArgument rhs (normaliseArgument s lhs).1)
  | unhandledLit p => simp [addClauseBodyLiteral, pushElem, List.Subset.refl]

theorem varSub_addBodyLiterals (ls : AstLiteralList) (scopeID : String)
    (s : NormState) : s.varSet ⊆ (addBodyLiterals scopeID s ls).varSet := by
  cases ls with
  | nil => simp [addBodyLiterals, List.Subset.refl]
  | cons l rest =>
      simp only [addBodyLiterals]
      exact (varSub_addClauseBodyLiteral l scopeID s).trans
        (varSub_addBodyLiterals rest scopeID (addClauseBodyLiteral scopeID s l))

end

mutual

theorem varForm_normaliseArgument (a : AstArgument) (s : NormState) :
    ∀ t ∈ (normaliseArgument s a).1.varSet,
      t ∈ s.varSet ∨ VarTokenForm (argVarNames a) t := by
  cases a with
  | stringConstant v => intro t ht; exact Or.inl (by simpa [normaliseArgument] using ht)
  | numericConstant v => intro t ht; exact Or.inl (by simpa [normaliseArgument] using ht)
  | nilConstant => intro t ht; exact Or.inl (by simpa [normaliseArgument] using ht)
  | unhandledArg p => intro t ht; exact Or.inl (by simpa [normaliseArgument] using ht)
  | var n =>
      intro t ht
      simp only [normaliseArgument, mem_setInsert] at ht
      rcases ht with h | h
      · exact Or.inr (Or.inl (by simp [argVarNames, h]))
      · exact Or.inl h
  | unnamedVariable =>
      intro t ht
      simp only [normaliseArgument, mem_setInsert] at ht
      rcases ht with h | h
      · exact Or.inr (Or.inr (Or.inl ⟨s.countUnnamed, h⟩))
      · exact Or.inl h
  | aggregator op target body =>
      intro t ht
      simp only [normaliseArgument] at ht
      rcases varForm_addBodyLiterals body (scopeTok (s.aggrScopeCount + 1)) _ t ht with h | h
      · rw [pushElem_varSet] at h
        rcases varForm_normaliseAggTarget target (aggBump s) t h with h' | h'
        · rw [aggBump_varSet, mem_setInsert] at h'
          rcases h' with h'' | h''
          · exact Or.inr (Or.inr (Or.inr ⟨s.aggrScopeCount + 1, by omega, h''⟩))
          · exact Or.inl h''
        · refine Or.inr (h'.mono ?_)
          intro x hx
          simp [argVarNames, hx]
      · refine Or.inr (h.mono ?_)
        intro x hx
        simp [argVarNames, hx]

theorem varForm_normaliseAggTarget (t : AstAggTarget) (s : NormState) :
    ∀ x ∈ (normaliseAggTarget s t).1.varSet,
      x ∈ s.varSet ∨ VarTokenForm (aggTargetVarNames t) x := by
  cases t with
  | none => intro x hx; exact Or.inl (by simpa [normaliseAggTarget] using hx)
  | some a =>
      intro x hx
      simp only [normaliseAggTarget] at hx
      rcases varForm_normaliseArgument a s x hx with h | h
      · exact Or.inl h
      · exact Or.inr (by simpa [aggTargetVarNames] using h)

theorem varForm_normaliseArgList (args : AstArgList) (s : NormState) :
    ∀ t ∈ (normaliseArgList s args).1.varSet,
      t ∈ s.varSet ∨ VarTokenForm (argsVarNames args) t := by
  cases args with
  | nil => intro t ht; exact Or.inl (by simpa [normaliseArgList] using ht)
  | cons a rest =>
      intro t ht
      simp only [normaliseArgList] at ht
      rcases varForm_normaliseArgList rest (normaliseArgument s a).1 t ht with h | h
      · rcases varForm_normaliseArgument a s t h with h' | h'
        · exact Or.inl h'
        · refine Or.inr (h'.mono ?_)
          intro x hx
          simp [argsVarNames, hx]
      · refine Or.inr (h.mono ?_)
        intro x hx
        simp [argsVarNames, hx]

theorem varForm_addClauseBodyLiteral (l : AstLiteral) (scopeID : String)
    (s : NormState) :
    ∀ t ∈ (addClauseBodyLiteral scopeID s l).varSet,
      t ∈ s.varSet ∨ VarTokenForm (litVarNames l) t := by
  cases l with
  | atom n args =>
      intro t ht
      rw [addClauseBodyLiteral, pushElem_varSet] at ht
      rcases varForm_normaliseArgList args s t ht with h | h
      · exact Or.inl h
      · exact Or.inr (by simpa [litVarNames] using h)
  | negation n args =>
      intro t ht
      rw [addClauseBodyLiteral, pushElem_varSet] at ht
      rcases varForm_normaliseArgList args s t ht with h | h
      · exact Or.inl h
      · exact Or.inr (by simpa [litVarNames] using h)
  | binaryConstraint op lhs rhs =>
      intro t ht
      rw [addClauseBodyLiteral, pushElem_varSet] at ht
      rcases varForm_normaliseArgument rhs (normaliseArgument s lhs).1 t ht with h | h
      · rcases varForm_normaliseArgument lhs s t h with h' | h'
        · exact Or.inl h'
        · refine Or.inr (h'.mono ?_)
          intro x hx
          simp [litVarNames, hx]
      · refine Or.inr (h.mono ?_)
        intro x hx
        simp [litVarNames, hx]
  | unhandledLit p =>
      intro t ht
      rw [addClauseBodyLiteral] at ht
      exact Or.inl (by simpa [pushElem] using ht)

theorem varForm_addBodyLiterals (ls : AstLiteralList) (scopeID : String)
    (s : NormState) :
    ∀ t ∈ (addBodyLiterals scopeID s ls).varSet,
      t ∈ s.varSet ∨ VarTokenForm (litsVarNames ls) t := by
  cases ls with
  | nil => intro t ht; exact Or.inl (by simpa [addBodyLiterals] using ht)
  | cons l rest =>
      intro t ht
      simp only [addBodyLiterals] at ht
      rcases varForm_addBodyLiterals rest scopeID _ t ht with h | h
      · rcases varForm_addClauseBodyLiteral l scopeID s t h with h' | h'
        · exact Or.inl h'
        · refine Or.inr (h'.mono ?_)
          intro x hx
          simp [litsVarNames, hx]
      · refine Or.inr (h.mono ?_)
        intro x hx
        simp [litsVarNames, hx]

end

mutual

theorem cstForm_normaliseArgument (a : AstArgument) (s : NormState) :
    ∀ t ∈ (normaliseArgument s a).1.constants,
      t ∈ s.constants ∨ strStartsWith "@min:cst:" t = true := by
  cases a with
  | stringConstant v =>
      intro t ht
      simp only [normaliseArgument, mem_setInsert] at ht
      rcases ht with h | h
      · exact Or.inr (h ▸ strStartsWith_append (printedStringConstant v) (by decide))
      · exact Or.inl h
  | numericConstant v =>
      intro t ht
      simp only [normaliseArgument, mem_setInsert] at ht
      rcases ht with h | h
      · exact Or.inr (h ▸ strStartsWith_append (toString v) (by decide))
      · exact Or.inl h
  | nilConstant =>
      intro t ht
      simp only [normaliseArgument, mem_setInsert] at ht
      rcases ht with h | h
      · exact Or.inr (h ▸ by decide)
      · exact Or.inl h
  | var n => intro t ht; exact Or.inl (by simpa [normaliseArgument] using ht)
  | unnamedVariable => intro t ht; exact Or.inl (by simpa [normaliseArgument] using ht)
  | unhandledArg p => intro t ht; exact Or.inl (by simpa [normaliseArgument] using ht)
  | aggregator op target body =>
      intro t ht
      simp only [normaliseArgument] at ht
      rcases cstForm_addBodyLiterals body (scopeTok (s.aggrScopeCount + 1)) _ t ht with h | h
      · rw [pushElem_constants] at h
        rcases cstForm_normaliseAggTarget target (aggBump s) t h with h' | h'
        · exact Or.inl (by simpa [aggBump_constants] using h')
        · exact Or.inr h'
      · exact Or.inr h

theorem cstForm_normaliseAggTarget (t : AstAggTarget) (s : NormState) :
    ∀ x ∈ (normaliseAggTarget s t).1.constants,
      x ∈ s.constants ∨ strStartsWith "@min:cst:" x = true := by
  cases t with
  | none => intro x hx; exact Or.inl (by simpa [normaliseAggTarget] using hx)
  | some a =>
      intro x hx
      simp only [normaliseAggTarget] at hx
      exact cstForm_normaliseArgument a s x hx

theorem cstForm_normaliseArgList (args : AstArgList) (s : NormState) :
    ∀ t ∈ (normaliseArgList s args).1.constants,
      t ∈ s.constants ∨ strStartsWith "@min:cst:" t = true := by
  cases args with
  | nil => intro t ht; exact Or.inl (by simpa [normaliseArgList] using ht)
  | cons a rest =>
      intro t ht
      simp only [normaliseArgList] at ht
      rcases cstForm_normaliseArgList rest (normaliseArgument s a).1 t ht with h | h
      · exact cstForm_normaliseArgument a s t h
      · exact Or.inr h

theorem cstForm_addClauseBodyLiteral (l : AstLiteral) (scopeID : String)
    (s : NormState) :
    ∀ t ∈ (addClauseBodyLiteral scopeID s l).constants,
      t ∈ s.constants ∨ strStartsWith "@min:cst:" t = true := by
  cases l with
  | atom n args =>
      intro t ht
      rw [addClauseBodyLiteral, pushElem_constants] at ht
      exact cstForm_normaliseArgList args s t ht
  | negation n args =>
      intro t ht
      rw [addClauseBodyLiteral, pushElem_constants] at ht
      exact cstForm_normaliseArgList args s t ht
  | binaryConstraint op lhs rhs =>
      intro t ht
      rw [addClauseBodyLiteral, pushElem_constants] at ht
      rcases cstForm_normaliseArgument rhs (normaliseArgument s lhs).1 t ht with h | h
      · exact cstForm_normaliseArgument lhs s t h
      · exact Or.inr h
  | unhandledLit p =>
      intro t ht
      rw [addClauseBodyLiteral] at ht
      exact Or.inl (by simpa [pushElem] using ht)

theorem cstForm_addBodyLiterals (ls : AstLiteralList) (scopeID : String)
    (s : NormState) :
    ∀ t ∈ (addBodyLiterals scopeID s ls).constants,
      t ∈ s.constants ∨ strStartsWith "@min:cst:" t = true := by
  cases ls with
  | nil => intro t ht; exact Or.inl (by simpa [addBodyLiterals] using ht)
  | cons l rest =>
      intro t ht
      simp only [addBodyLiterals] at ht
      rcases cstForm_addBodyLiterals rest scopeID _ t ht with h | h
      · exact cstForm_addClauseBodyLiteral l scopeID s t h
      · exact Or.inr h

end

/-- No aggregator at the top of the argument: the only argument kind that
emits elements or changes the aggregator scope counter. -/
def argNoAgg : AstArgument → Bool
  | AstArgument.aggregator _ _ _ => false
  | _ => true

/-- No aggregator at the top of any argument of the vector. -/
def argsNoAgg : AstArgList → Bool
  | AstArgList.nil => true
  | AstArgList.cons a rest => argNoAgg a && argsNoAgg rest

/-- No aggregator anywhere in a literal's arguments. -/
def litNoAgg : AstLiteral → Bool
  | AstLiteral.atom _ args => argsNoAgg args
  | AstLiteral.negation _ args => argsNoAgg args
  | AstLiteral.binaryConstraint _ lhs rhs => argNoAgg lhs && argNoAgg rhs
  | AstLiteral.unhandledLit _ => true

/-- No aggregator in any literal of the vector. -/
def litsNoAgg : AstLiteralList → Bool
  | AstLiteralList.nil => true
  | AstLiteralList.cons l rest => litNoAgg l && litsNoAgg rest

/-- The clause contains no aggregator argument. -/
def clauseNoAgg (c : AstClause) : Bool :=
  argsNoAgg c.headArgs && litsNoAgg c.body

theorem noAgg_normaliseArgument (a : AstArgument) (s : NormState)
    (h : argNoAgg a = true) :
    (normaliseArgument s a).1.clauseElements = s.clauseElements := by
  cases a <;> simp_all [normaliseArgument, argNoAgg]

theorem noAgg_normaliseArgList (args : AstArgList) : ∀ s : NormState,
    argsNoAgg args = true →
    (normaliseArgList s args).1.clauseElements = s.clauseElements := by
  cases args with
  | nil =>
      intro s _
      simp [normaliseArgList]
  | cons a rest =>
      intro s h
      rw [argsNoAgg, Bool.and_eq_true] at h
      simp only [normaliseArgList]
      rw [noAgg_normaliseArgList rest (normaliseArgument s a).1 h.2,
        noAgg_normaliseArgument a s h.1]

/-- A simple argument: neither an aggregator nor an unnamed variable, so
its token is a function of the argument alone and no elements are
emitted. -/
def argSimple : AstArgument → Bool
  | AstArgument.unnamedVariable => false
  | AstArgument.aggregator _ _ _ => false
  | _ => true

/-- All arguments of the vector are simple. -/
def argsSimple : AstArgList → Bool
  | AstArgList.nil => true
  | AstArgList.cons a rest => argSimple a && argsSimple rest

/-- A simple literal: all its arguments are simple, so its normalisation
emits exactly one element that is a function of the literal and the scope
identifier alone. -/
def litSimple : AstLiteral → Bool
  | AstLiteral.atom _ args => argsSimple args
  | AstLiteral.negation _ args => argsSimple args
  | AstLiteral.binaryConstraint _ lhs rhs => argSimple lhs && argSimple rhs
  | AstLiteral.unhandledLit _ => true

/-- All literals of the vector are simple. -/
def litsSimple : AstLiteralList → Bool
  | AstLiteralList.nil => true
  | AstLiteralList.cons l rest => litSimple l && litsSimple rest

/-- The token of a simple argument (junk for the two non-simple kinds). -/
def pureTok : AstArgument → String
  | AstArgument.stringConstant v => "@min:cst:str" ++ printedStringConstant v
  | AstArgument.numericConstant v => "@min:cst:num:" ++ toString v
  | AstArgument.nilConstant => "@min:cst:nil"
  | AstArgument.var n => n
  | AstArgument.unnamedVariable => ""
  | AstArgument.aggregator _ _ _ => ""
  | AstArgument.unhandledArg _ => "@min:unhandled:arg"

/-- The tokens of a vector of simple arguments. -/
def pureToks : AstArgList → List String
  | AstArgList.nil => []
  | AstArgList.cons a rest => pureTok a :: pureToks rest

/-- The one element emitted for a simple literal under a scope
identifier. -/
def litElem (scopeID : String) : AstLiteral → NormElement
  | AstLiteral.atom n args => ⟨"@min:atom" :: n, scopeID :: pureToks args⟩
  | AstLiteral.negation n args => ⟨"@min:neg" :: n, scopeID :: pureToks args⟩
  | AstLiteral.binaryConstraint op lhs rhs =>
      ⟨["@min:operator", toBinaryConstraintSymbol op],
        [scopeID, pureTok lhs, pureTok rhs]⟩
  | AstLiteral.unhandledLit p => ⟨["@min:unhandled:lit:" ++ scopeID, p], []⟩

theorem simple_normaliseArgument (a : AstArgument) (s : NormState)
    (h : argSimple a = true) :
    (normaliseArgument s a).2 = pureTok a ∧
    (normaliseArgument s a).1.clauseElements = s.clauseElements ∧
    (normaliseArgument s a).1.countUnnamed = s.countUnnamed ∧
    (normaliseArgument s a).1.aggrScopeCount = s.aggrScopeCount := by
  cases a <;> simp_all [normaliseArgument, argSimple, pureTok]

theorem simple_normaliseArgList (args : AstArgList) : ∀ s : NormState,
    argsSimple args = true →
    (normaliseArgList s args).2 = pureToks args ∧
    (normaliseArgList s args).1.clauseElements = s.clauseElements ∧
    (normaliseArgList s args).1.countUnnamed = s.countUnnamed ∧
    (normaliseArgList s args).1.aggrScopeCount = s.aggrScopeCount := by
  cases args with
  | nil =>
      intro s _
      simp [normaliseArgList, pureToks]
  | cons a rest =>
      intro s h
      rw [argsSimple, Bool.and_eq_true] at h
      obtain ⟨h1, h2, h3, h4⟩ := simple_normaliseArgument a s h.1
      obtain ⟨g1, g2, g3, g4⟩ :=
        simple_normaliseArgList rest (normaliseArgument s a).1 h.2
      simp only [normaliseArgList, pureToks]
      exact ⟨by rw [g1, h1], by rw [g2, h2], by rw [g3, h3], by rw [g4, h4]⟩

theorem simple_addClauseBodyLiteral (l : AstLiteral) (scopeID : String)
    (s : NormState) (h : litSimple l = true) :
    (addClauseBodyLiteral scopeID s l).clauseElements =
      s.clauseElements ++ [litElem scopeID l] ∧
    (addClauseBodyLiteral scopeID s l).countUnnamed = s.countUnnamed ∧
    (addClauseBodyLiteral scopeID s l).aggrScopeCount = s.aggrScopeCount := by
  cases l with
  | atom n args =>
      rw [litSimple] at h
      obtain ⟨g1, g2, g3, g4⟩ := simple_normaliseArgList args s h
      simp only [addClauseBodyLiteral, litElem, pushElem_clauseElements,
        pushElem_countUnnamed, pushElem_aggrScopeCount]
      exact ⟨by rw [g1, g2], g3, g4⟩
  | negation n args =>
      rw [litSimple] at h
      obtain ⟨g1, g2, g3, g4⟩ := simple_normaliseArgList args s h
      simp only [addClauseBodyLiteral, litElem, pushElem_clauseElements,
        pushElem_countUnnamed, pushElem_aggrScopeCount]
      exact ⟨by rw [g1, g2], g3, g4⟩
  | binaryConstraint op lhs rhs =>
      rw [litSimple, Bool.and_eq_true] at h
      obtain ⟨h1, h2, h3, h4⟩ := simple_normaliseArgument lhs s h.1
      obtain ⟨g1, g2, g3, g4⟩ :=
        simple_normaliseArgument rhs (normaliseArgument s lhs).1 h.2
      simp only [addClauseBodyLiteral, litElem, pushElem_clauseElements,
        pushElem_countUnnamed, pushElem_aggrScopeCount]
      exact ⟨by rw [g2, h2, g1, h1], by rw [g3, h3], by rw [g4, h4]⟩
  | unhandledLit p =>
      simp [addClauseBodyLiteral, litElem, pushElem]

theorem simple_addBodyLiterals (ls : AstLiteralList) : ∀ s : NormState,
    ∀ scopeID : String, litsSimple ls = true →
    (addBodyLiterals scopeID s ls).clauseElements =
      s.clauseElements ++ (litsToList ls).map (litElem scopeID) := by
  cases ls with
  | nil =>
      intro s scopeID _
      simp [addBodyLiterals, litsToList]
  | cons l rest =>
      intro s scopeID h
      rw [litsSimple, Bool.and_eq_true] at h
      obtain ⟨g1, _, _⟩ := simple_addClauseBodyLiteral l scopeID s h.1
      simp only [addBodyLiterals, litsToList, List.map_cons]
      rw [simple_addBodyLiterals rest (addClauseBodyLiteral scopeID s l) scopeID h.2,
        g1, List.append_assoc]
      rfl

/-- Append of literal vectors. -/
def litsApp : AstLiteralList → AstLiteralList → AstLiteralList
  | AstLiteralList.nil, l₂ => l₂
  | AstLiteralList.cons l rest, l₂ => AstLiteralList.cons l (litsApp rest l₂)

/-- Append of argument vectors. -/
def argsApp : AstArgList → AstArgList → AstArgList
  | AstArgList.nil, a₂ => a₂
  | AstArgList.cons a rest, a₂ => AstArgList.cons a (argsApp rest a₂)

theorem addBodyLiterals_app (l₁ : AstLiteralList) : ∀ (l₂ : AstLiteralList)
    (scopeID : String) (s : NormState),
    addBodyLiterals scopeID s (litsApp l₁ l₂) =
      addBodyLiterals scopeID (addBodyLiterals scopeID s l₁) l₂ := by
  cases l₁ with
  | nil =>
      intro l₂ scopeID s
      simp [litsApp, addBodyLiterals]
  | cons l rest =>
      intro l₂ scopeID s
      simp only [litsApp, addBodyLiterals]
      exact addBodyLiterals_app rest l₂ scopeID (addClauseBodyLiteral scopeID s l)

theorem normaliseArgList_app (a₁ : AstArgList) : ∀ (a₂ : AstArgList)
    (s : NormState),
    normaliseArgList s (argsApp a₁ a₂) =
      ((normaliseArgList (normaliseArgList s a₁).1 a₂).1,
        (normaliseArgList s a₁).2 ++ (normaliseArgList (normaliseArgList s a₁).1 a₂).2) := by
  cases a₁ with
  | nil =>
      intro a₂ s
      simp [argsApp, normaliseArgList]
  | cons a rest =>
      intro a₂ s
      simp only [argsApp, normaliseArgList]
      rw [normaliseArgList_app rest a₂ (normaliseArgument s a).1]
      simp

theorem litsToList_ofList (l : List AstLiteral) :
    litsToList (litsOfList l) = l := by
  induction l with
  | nil => simp [litsOfList, litsToList]
  | cons x rest ih => simp [litsOfList, litsToList, ih]

theorem litsSimple_ofList (l : List AstLiteral) :
    litsSimple (litsOfList l) = l.all litSimple := by
  induction l with
  | nil => simp [litsOfList, litsSimple]
  | cons x rest ih => simp [litsOfList, litsSimple, ih]

/-!  ## Example clauses used by the claims -/

/-- Clause `R(X) :- S(X).` -/
def clauseRxSx : AstClause :=
  ⟨["R"], AstArgList.cons (AstArgument.var "X") AstArgList.nil,
    AstLiteralList.cons
      (AstLiteral.atom ["S"] (AstArgList.cons (AstArgument.var "X") AstArgList.nil))
      AstLiteralList.nil⟩

/-- Clause `R(_) :- S(_).` -/
def clauseUnnamedPair : AstClause :=
  ⟨["R"], AstArgList.cons AstArgument.unnamedVariable AstArgList.nil,
    AstLiteralList.cons
      (AstLiteral.atom ["S"] (AstArgList.cons AstArgument.unnamedVariable AstArgList.nil))
      AstLiteralList.nil⟩

/-- Clause `R(Y) :- Y = count : { S(X) }.` -/
def clauseAggCount : AstClause :=
  ⟨["R"], AstArgList.cons (AstArgument.var "Y") AstArgList.nil,
    AstLiteralList.cons
      (AstLiteral.binaryConstraint BinaryConstraintOp.eq (AstArgument.var "Y")
        (AstArgument.aggregator AggregateOp.count AstAggTarget.none
          (AstLiteralList.cons
            (AstLiteral.atom ["S"]
              (AstArgList.cons (AstArgument.var "X") AstArgList.nil))
            AstLiteralList.nil)))
      AstLiteralList.nil⟩

/-- A clause whose head argument is the aggregate `count : { }`. -/
def clauseAggHead : AstClause :=
  ⟨["R"], AstArgList.cons
      (AstArgument.aggregator AggregateOp.count AstAggTarget.none AstLiteralList.nil)
      AstArgList.nil,
    AstLiteralList.nil⟩

/-- Clause `R() :- S(_), T(_).` -/
def clauseTwoUnnamed : AstClause :=
  ⟨["R"], AstArgList.nil,
    AstLiteralList.cons
      (AstLiteral.atom ["S"] (AstArgList.cons AstArgument.unnamedVariable AstArgList.nil))
      (AstLiteralList.cons
        (AstLiteral.atom ["T"] (AstArgList.cons AstArgument.unnamedVariable AstArgList.nil))
        AstLiteralList.nil)⟩

/-- Clause `R() :- T(_), S(_).`, the body of `clauseTwoUnnamed` reversed. -/
def clauseTwoUnnamedRev : AstClause :=
  ⟨["R"], AstArgList.nil,
    AstLiteralList.cons
      (AstLiteral.atom ["T"] (AstArgList.cons AstArgument.unnamedVariable AstArgList.nil))
      (AstLiteralList.cons
        (AstLiteral.atom ["S"] (AstArgList.cons AstArgument.unnamedVariable AstArgList.nil))
        AstLiteralList.nil)⟩

/-!  ## The claims -/

/-- Claim C1: the unnamed-variable counter is per-`NormalisedClause`, so
normalising the same clause twice restarts the numbering at `0` and yields
identical element sequences, constants sets and variables sets.  The code
violates this: `countUnnamed` is a function-local `static`, i.e. a
process-global counter that is never reset.  This theorem evaluates the
embedded code at the failing input: normalising `R(_) :- S(_).` starting
from the process-global counter value `0` yields unnamed tokens `0` and
`1`; normalising the very same clause again, from the counter value the
first run left behind, yields tokens `2` and `3`, so the two runs disagree
on both the variables set and the element sequence. -/
theorem c1_unnamed_counter_is_global :
    (normClause 0 clauseUnnamedPair).varSet =
      ["@min:unnamed:0", "@min:unnamed:1"] ∧
    (normClause 0 clauseUnnamedPair).countUnnamed = 2 ∧
    (normClause (normClause 0 clauseUnnamedPair).countUnnamed
        clauseUnnamedPair).varSet = ["@min:unnamed:2", "@min:unnamed:3"] ∧
    (normClause (normClause 0 clauseUnnamedPair).countUnnamed
        clauseUnnamedPair).varSet ≠ (normClause 0 clauseUnnamedPair).varSet ∧
    (normClause (normClause 0 clauseUnnamedPair).countUnnamed
        clauseUnnamedPair).clauseElements ≠
      (normClause 0 clauseUnnamedPair).clauseElements := by
  decide

/-- Claim C3: for `R(Y) :- Y = count : { S(X) }.` the claim's first two
parts hold (the `@min:aggrtype:count` element with params `[@min:scope:1]`,
then the `@min:atom`-prefixed `S` element with scope `@min:scope:1`), but
its last part fails: in the binary-constraint element the normalised token
of the variable `Y` is the raw name `Y`, not `@min:scope:1` (which is the
token of the aggregator on the right-hand side). -/
theorem c3_counterexample_y_token :
    (normClause 0 clauseAggCount).clauseElements =
      [⟨["@min:head"], ["Y"]⟩,
       ⟨["@min:aggrtype:count"], ["@min:scope:1"]⟩,
       ⟨["@min:atom", "S"], ["@min:scope:1", "X"]⟩,
       ⟨["@min:operator", "="], ["@min:scope:0", "Y", "@min:scope:1"]⟩] ∧
    ("Y" : String) ≠ "@min:scope:1" := by
  decide

/-- Claim C3 (amended): for `R(Y) :- Y = count : { S(X) }.`, normalisation
emits the `@min:aggrtype:count` element with params `[@min:scope:1]`, then
the `@min:atom`-prefixed `S` element with scope `@min:scope:1`, and the
binary-constraint element has params
`[@min:scope:0, Y, @min:scope:1]`: the variable `Y` keeps its raw token
`Y` while the aggregator's token `@min:scope:1` stands in the
right-hand-side position. -/
theorem c3_aggregate_clause_elements :
    (normClause 0 clauseAggCount).clauseElements.take 3 =
      [⟨["@min:head"], ["Y"]⟩,
       ⟨["@min:aggrtype:count"], ["@min:scope:1"]⟩,
       ⟨["@min:atom", "S"], ["@min:scope:1", "X"]⟩] ∧
    (normClause 0 clauseAggCount).clauseElements.getLast? =
      some ⟨["@min:operator", "="], ["@min:scope:0", "Y", "@min:scope:1"]⟩ ∧
    (normClause 0 clauseAggCount).varSet = ["Y", "@min:scope:1", "X"] := by
  decide

/-- Claim C5: under a scope identifier, an atom yields one element named
`"@min:atom"` prepended to the predicate with params
`[scopeID, norm(a₁), …, norm(aₙ)]`; a negation yields the same shape with
the `"@min:neg"` prefix; a binary constraint `l ⊙ r` yields one element
named `"@min:operator"` prepended to the printable symbol of `⊙` with
params `[scopeID, norm(l), norm(r)]` (the left operand normalised first,
then the right in the resulting state). -/
theorem c5_body_literal_shapes :
    (∀ (scopeID : String) (s : NormState) (n : List String) (args : AstArgList),
      addClauseBodyLiteral scopeID s (AstLiteral.atom n args) =
        pushElem ⟨"@min:atom" :: n, scopeID :: (normaliseArgList s args).2⟩
          (normaliseArgList s args).1) ∧
    (∀ (scopeID : String) (s : NormState) (n : List String) (args : AstArgList),
      addClauseBodyLiteral scopeID s (AstLiteral.negation n args) =
        pushElem ⟨"@min:neg" :: n, scopeID :: (normaliseArgList s args).2⟩
          (normaliseArgList s args).1) ∧
    (∀ (scopeID : String) (s : NormState) (op : BinaryConstraintOp)
        (lhs rhs : AstArgument),
      addClauseBodyLiteral scopeID s (AstLiteral.binaryConstraint op lhs rhs) =
        pushElem ⟨["@min:operator", toBinaryConstraintSymbol op],
          [scopeID, (normaliseArgument s lhs).2,
            (normaliseArgument (normaliseArgument s lhs).1 rhs).2]⟩
          (normaliseArgument (normaliseArgument s lhs).1 rhs).1) := by
  refine ⟨?_, ?_, ?_⟩ <;> intros <;> rfl

/-- Claim C7: an unhandled literal clears `fullyNormalised` and emits one
element named `("@min:unhandled:lit:" ++ scopeID)` prepended to the
literal's printed form, with empty params; an unhandled argument clears
`fullyNormalised` and returns the placeholder token
`"@min:unhandled:arg"`; and processing continues: a literal vector and an
argument vector are processed left to right through any such element, so
the remainder after it is normalised exactly as it would be from the
intermediate state. -/
theorem c7_unhandled_recovery :
    (∀ (scopeID : String) (s : NormState) (p : String),
      addClauseBodyLiteral scopeID s (AstLiteral.unhandledLit p) =
        pushElem ⟨["@min:unhandled:lit:" ++ scopeID, p], []⟩
          { s with fullyNormalised := false }) ∧
    (∀ (s : NormState) (p : String),
      normaliseArgument s (AstArgument.unhandledArg p) =
        ({ s with fullyNormalised := false }, "@min:unhandled:arg")) ∧
    (∀ (l₁ l₂ : AstLiteralList) (scopeID : String) (s : NormState),
      addBodyLiterals scopeID s (litsApp l₁ l₂) =
        addBodyLiterals scopeID (addBodyLiterals scopeID s l₁) l₂) ∧
    (∀ (a₁ a₂ : AstArgList) (s : NormState),
      normaliseArgList s (argsApp a₁ a₂) =
        ((normaliseArgList (normaliseArgList s a₁).1 a₂).1,
          (normaliseArgList s a₁).2 ++
            (normaliseArgList (normaliseArgList s a₁).1 a₂).2)) := by
  refine ⟨fun scopeID s p => rfl, fun s p => rfl, ?_, ?_⟩
  · intro l₁ l₂ scopeID s
    exact addBodyLiterals_app l₁ l₂ scopeID s
  · intro a₁ a₂ s
    exact normaliseArgList_app a₁ a₂ s

/-- Claim C8: `fullyNormalised` starts `true` on a freshly constructed
`NormalisedClause`, and it is sticky: once `false`, every further
normalisation step of the clause leaves it `false`. -/
theorem c8_fully_normalised_sticky :
    (∀ g : Nat, (initNormState g).fullyNormalised = true) ∧
    (∀ (s : NormState) (a : AstArgument), s.fullyNormalised = false →
      (normaliseArgument s a).1.fullyNormalised = false) ∧
    (∀ (s : NormState) (t : AstAggTarget), s.fullyNormalised = false →
      (normaliseAggTarget s t).1.fullyNormalised = false) ∧
    (∀ (s : NormState) (args : AstArgList), s.fullyNormalised = false →
      (normaliseArgList s args).1.fullyNormalised = false) ∧
    (∀ (s : NormState) (scopeID : String) (l : AstLiteral),
      s.fullyNormalised = false →
      (addClauseBodyLiteral scopeID s l).fullyNormalised = false) ∧
    (∀ (s : NormState) (scopeID : String) (ls : AstLiteralList),
      s.fullyNormalised = false →
      (addBodyLiterals scopeID s ls).fullyNormalised = false) := by
  refine ⟨fun g => rfl, ?_, ?_, ?_, ?_, ?_⟩
  · intro s a h
    exact sticky_normaliseArgument a s h
  · intro s t h
    exact sticky_normaliseAggTarget t s h
  · intro s args h
    exact sticky_normaliseArgList args s h
  · intro s scopeID l h
    exact sticky_addClauseBodyLiteral l scopeID s h
  · intro s scopeID ls h
    exact sticky_addBodyLiterals ls scopeID s h

/-- Claim C2: normalising an aggregator argument returns the fresh scope
token built from the incremented per-clause aggregator counter, inserts it
into the variable set, runs exactly the source sequence (bump the counter
and record the scope, normalise the optional target, push the
type-signature element `"@min:aggrtype:" ++ op` whose params start with the
new scope identifier followed by the normalised target tokens, then
normalise every body literal under the new scope identifier), where the
target contributes no token when absent and exactly its normalised token
when present; and every type-signature element emitted for a nested
aggregator during the target or body carries a scope token with a strictly
larger index, hence distinct from the new scope and from every enclosing
scope token (those have indices at most the incoming counter). -/
theorem c2_aggregator_scope (s : NormState) (op : AggregateOp)
    (target : AstAggTarget) (body : AstLiteralList) :
    (normaliseArgument s (AstArgument.aggregator op target body)).2 =
      scopeTok (s.aggrScopeCount + 1) ∧
    scopeTok (s.aggrScopeCount + 1) ∈
      (normaliseArgument s (AstArgument.aggregator op target body)).1.varSet ∧
    normaliseArgument s (AstArgument.aggregator op target body) =
      (addBodyLiterals (scopeTok (s.aggrScopeCount + 1))
        (pushElem ⟨["@min:aggrtype:" ++ aggrOpSymbol op],
          scopeTok (s.aggrScopeCount + 1) ::
            (normaliseAggTarget (aggBump s) target).2⟩
          (normaliseAggTarget (aggBump s) target).1) body,
        scopeTok (s.aggrScopeCount + 1)) ∧
    (∀ x : NormState, (normaliseAggTarget x AstAggTarget.none).2 = []) ∧
    (∀ (x : NormState) (t : AstArgument),
      (normaliseAggTarget x (AstAggTarget.some t)).2 = [(normaliseArgument x t).2]) ∧
    ∃ d₁ d₂,
      (normaliseArgument s (AstArgument.aggregator op target body)).1.clauseElements =
        s.clauseElements ++ d₁ ++
          [⟨["@min:aggrtype:" ++ aggrOpSymbol op],
            scopeTok (s.aggrScopeCount + 1) ::
              (normaliseAggTarget (aggBump s) target).2⟩] ++ d₂ ∧
      ∀ e ∈ d₁ ++ d₂, ∀ opStr : String, e.name = ["@min:aggrtype:" ++ opStr] →
        ∃ k rest, e.params = scopeTok k :: rest ∧ s.aggrScopeCount + 1 < k ∧
          scopeTok k ≠ scopeTok (s.aggrScopeCount + 1) ∧
          ∀ j ≤ s.aggrScopeCount, scopeTok k ≠ scopeTok j := by
  refine ⟨rfl, ?_, rfl, fun x => rfl, fun x t => rfl, ?_⟩
  · have h0 : scopeTok (s.aggrScopeCount + 1) ∈ (aggBump s).varSet := by
      rw [aggBump_varSet]
      exact self_mem_setInsert _ _
    have h1 := varSub_normaliseAggTarget target (aggBump s) h0
    have h2 : scopeTok (s.aggrScopeCount + 1) ∈
        (pushElem ⟨["@min:aggrtype:" ++ aggrOpSymbol op],
          scopeTok (s.aggrScopeCount + 1) ::
            (normaliseAggTarget (aggBump s) target).2⟩
          (normaliseAggTarget (aggBump s) target).1).varSet := by
      rw [pushElem_varSet]
      exact h1
    exact varSub_addBodyLiterals body (scopeTok (s.aggrScopeCount + 1)) _ h2
  · obtain ⟨dt, hdt, hct, hbt⟩ := elems_normaliseAggTarget target (aggBump s)
    obtain ⟨db, hdb, hcb, hbb⟩ := elems_addBodyLiterals body
      (scopeTok (s.aggrScopeCount + 1))
      (pushElem ⟨["@min:aggrtype:" ++ aggrOpSymbol op],
        scopeTok (s.aggrScopeCount + 1) ::
          (normaliseAggTarget (aggBump s) target).2⟩
        (normaliseAggTarget (aggBump s) target).1)
    simp only [aggBump_clauseElements, aggBump_aggrScopeCount] at hdt hct hbt
    simp only [pushElem_clauseElements, pushElem_aggrScopeCount] at hdb hcb hbb
    refine ⟨dt, db, ?_, ?_⟩
    · show (addBodyLiterals (scopeTok (s.aggrScopeCount + 1))
        (pushElem ⟨["@min:aggrtype:" ++ aggrOpSymbol op],
          scopeTok (s.aggrScopeCount + 1) ::
            (normaliseAggTarget (aggBump s) target).2⟩
          (normaliseAggTarget (aggBump s) target).1) body).clauseElements = _
      rw [hdb, hdt]
    · intro e he opStr hname
      rcases List.mem_append.mp he with hmem | hmem
      · obtain ⟨k, rest, hp, hk1, hk2⟩ := hbt e hmem opStr hname
        refine ⟨k, rest, hp, hk1, scopeTok_ne (by omega), fun j hj => scopeTok_ne (by omega)⟩
      · obtain ⟨k, rest, hp, hk1, hk2⟩ := hbb e hmem opStr hname
        refine ⟨k, rest, hp, by omega, scopeTok_ne (by omega), fun j hj => scopeTok_ne (by omega)⟩

/-- Claim C4 fails as stated on a clause whose head argument is an
aggregator: the elements the aggregator emits during head-argument
normalisation precede the `@min:head` element, so the first element is the
aggregator's type signature, not `@min:head`. -/
theorem c4_counterexample_agg_head :
    (normClause 0 clauseAggHead).clauseElements =
      [⟨["@min:aggrtype:count"], ["@min:scope:1"]⟩,
       ⟨["@min:head"], ["@min:scope:1"]⟩] ∧
    (["@min:aggrtype:count"] : List String) ≠ ["@min:head"] := by
  decide

/-- Claim C4 (amended): for every clause whose head contains no aggregator
argument, the first element of its `NormalisedClause` is named `@min:head`
and its params are the normalised-argument tokens of the head arguments in
head-declaration order; and `R(X) :- S(X).` yields exactly the elements
`{@min:head, [X]}` and `{@min:atom S, [@min:scope:0, X]}`, empty
constants, variables `{X}` and `fullyNormalised = true`. -/
theorem c4_head_element (g : Nat) (c : AstClause)
    (h : argsNoAgg c.headArgs = true) :
    (normClause g c).clauseElements.head? =
      some ⟨["@min:head"], (normaliseArgList (initNormState g) c.headArgs).2⟩ ∧
    (normClause 0 clauseRxSx).clauseElements =
      [⟨["@min:head"], ["X"]⟩, ⟨["@min:atom", "S"], ["@min:scope:0", "X"]⟩] ∧
    (normClause 0 clauseRxSx).constants = [] ∧
    (normClause 0 clauseRxSx).varSet = ["X"] ∧
    (normClause 0 clauseRxSx).fullyNormalised = true := by
  refine ⟨?_, by decide, by decide, by decide, by decide⟩
  obtain ⟨d, hd, _, _⟩ := elems_addBodyLiterals c.body "@min:scope:0"
    (pushElem ⟨["@min:head"], (normaliseArgList (initNormState g) c.headArgs).2⟩
      (normaliseArgList (initNormState g) c.headArgs).1)
  show (addBodyLiterals "@min:scope:0"
    (pushElem ⟨["@min:head"], (normaliseArgList (initNormState g) c.headArgs).2⟩
      (normaliseArgList (initNormState g) c.headArgs).1) c.body).clauseElements.head? = _
  rw [hd, pushElem_clauseElements,
    noAgg_normaliseArgList c.headArgs (initNormState g) h]
  have hinit : (initNormState g).clauseElements = [] := rfl
  rw [hinit]
  simp

/-- Witness for claim C4's amended theorem at `g = 0` and
`R(X) :- S(X).`. -/
theorem c4_witness_example :
    (normClause 0 clauseRxSx).clauseElements.head? =
      some ⟨["@min:head"], (normaliseArgList (initNormState 0) clauseRxSx.headArgs).2⟩ ∧
    (normClause 0 clauseRxSx).clauseElements =
      [⟨["@min:head"], ["X"]⟩, ⟨["@min:atom", "S"], ["@min:scope:0", "X"]⟩] ∧
    (normClause 0 clauseRxSx).constants = [] ∧
    (normClause 0 clauseRxSx).varSet = ["X"] ∧
    (normClause 0 clauseRxSx).fullyNormalised = true :=
  c4_head_element 0 clauseRxSx (by decide)

/-- Claim C6 fails as stated on `R() :- S(_), T(_).`: the clause contains
no aggregators and reversing its two body literals is a permutation, yet
the element multisets differ, because the process-global unnamed counter
numbers the wildcards in processing order: the `S` atom's element carries
`@min:unnamed:0` in one order and `@min:unnamed:1` in the other. -/
theorem c6_counterexample_unnamed_reorder :
    clauseNoAgg clauseTwoUnnamed = true ∧
    clauseNoAgg clauseTwoUnnamedRev = true ∧
    List.Perm (litsToList clauseTwoUnnamedRev.body)
      (litsToList clauseTwoUnnamed.body) ∧
    (⟨["@min:atom", "S"], ["@min:scope:0", "@min:unnamed:0"]⟩ : NormElement) ∈
      (normClause 0 clauseTwoUnnamed).clauseElements ∧
    (⟨["@min:atom", "S"], ["@min:scope:0", "@min:unnamed:0"]⟩ : NormElement) ∉
      (normClause 0 clauseTwoUnnamedRev).clauseElements := by
  refine ⟨by decide, by decide, ?_, by decide, by decide⟩
  exact List.Perm.swap _ _ _

/-- Claim C6 (amended): for every clause that contains no aggregators and
no unnamed variables in its body literals, permuting the body literals
yields a `NormalisedClause` whose element list keeps the `@min:head`
element at position 0 and whose body elements are a permutation of the
originals, pairwise equal as elements. -/
theorem c6_body_reorder_invariance (g : Nat) (hname : List String)
    (hargs : AstArgList) (l l' : List AstLiteral)
    (hperm : List.Perm l' l)
    (hhead : argsNoAgg hargs = true)
    (hsimple : ∀ x ∈ l, litSimple x = true) :
    (normClause g ⟨hname, hargs, litsOfList l⟩).clauseElements =
      ⟨["@min:head"], (normaliseArgList (initNormState g) hargs).2⟩ ::
        l.map (litElem "@min:scope:0") ∧
    (normClause g ⟨hname, hargs, litsOfList l'⟩).clauseElements =
      ⟨["@min:head"], (normaliseArgList (initNormState g) hargs).2⟩ ::
        l'.map (litElem "@min:scope:0") ∧
    List.Perm (l'.map (litElem "@min:scope:0")) (l.map (litElem "@min:scope:0")) := by
  have key : ∀ m : List AstLiteral, (∀ x ∈ m, litSimple x = true) →
      (normClause g ⟨hname, hargs, litsOfList m⟩).clauseElements =
        ⟨["@min:head"], (normaliseArgList (initNormState g) hargs).2⟩ ::
          m.map (litElem "@min:scope:0") := by
    intro m hm
    show (addBodyLiterals "@min:scope:0"
      (pushElem ⟨["@min:head"], (normaliseArgList (initNormState g) hargs).2⟩
        (normaliseArgList (initNormState g) hargs).1) (litsOfList m)).clauseElements = _
    rw [simple_addBodyLiterals (litsOfList m) _ "@min:scope:0" ?hs]
    case hs =>
      rw [litsSimple_ofList]
      exact List.all_eq_true.mpr hm
    rw [pushElem_clauseElements,
      noAgg_normaliseArgList hargs (initNormState g) hhead, litsToList_ofList]
    have hinit : (initNormState g).clauseElements = [] := rfl
    rw [hinit]
    simp
  exact ⟨key l hsimple, key l' fun x hx => hsimple x (hperm.subset hx), hperm.map _⟩

/-- Witness for claim C6's amended theorem: swapping the two body atoms of
`R() :- S(X), T(Y).`. -/
theorem c6_witness_swap :
    (normClause 0 ⟨["R"], AstArgList.nil, litsOfList
        [AstLiteral.atom ["S"] (AstArgList.cons (AstArgument.var "X") AstArgList.nil),
         AstLiteral.atom ["T"] (AstArgList.cons (AstArgument.var "Y") AstArgList.nil)]⟩).clauseElements =
      ⟨["@min:head"], (normaliseArgList (initNormState 0) AstArgList.nil).2⟩ ::
        ([AstLiteral.atom ["S"] (AstArgList.cons (AstArgument.var "X") AstArgList.nil),
          AstLiteral.atom ["T"] (AstArgList.cons (AstArgument.var "Y") AstArgList.nil)].map
          (litElem "@min:scope:0")) ∧
    (normClause 0 ⟨["R"], AstArgList.nil, litsOfList
        [AstLiteral.atom ["T"] (AstArgList.cons (AstArgument.var "Y") AstArgList.nil),
         AstLiteral.atom ["S"] (AstArgList.cons (AstArgument.var "X") AstArgList.nil)]⟩).clauseElements =
      ⟨["@min:head"], (normaliseArgList (initNormState 0) AstArgList.nil).2⟩ ::
        ([AstLiteral.atom ["T"] (AstArgList.cons (AstArgument.var "Y") AstArgList.nil),
          AstLiteral.atom ["S"] (AstArgList.cons (AstArgument.var "X") AstArgList.nil)].map
          (litElem "@min:scope:0")) ∧
    List.Perm
      ([AstLiteral.atom ["T"] (AstArgList.cons (AstArgument.var "Y") AstArgList.nil),
        AstLiteral.atom ["S"] (AstArgList.cons (AstArgument.var "X") AstArgList.nil)].map
        (litElem "@min:scope:0"))
      ([AstLiteral.atom ["S"] (AstArgList.cons (AstArgument.var "X") AstArgList.nil),
        AstLiteral.atom ["T"] (AstArgList.cons (AstArgument.var "Y") AstArgList.nil)].map
        (litElem "@min:scope:0")) :=
  c6_body_reorder_invariance 0 ["R"] AstArgList.nil
    [AstLiteral.atom ["S"] (AstArgList.cons (AstArgument.var "X") AstArgList.nil),
     AstLiteral.atom ["T"] (AstArgList.cons (AstArgument.var "Y") AstArgList.nil)]
    [AstLiteral.atom ["T"] (AstArgList.cons (AstArgument.var "Y") AstArgList.nil),
     AstLiteral.atom ["S"] (AstArgList.cons (AstArgument.var "X") AstArgList.nil)]
    (List.Perm.swap _ _ _) (by decide) (by decide)

theorem registryContains_false_iff (reg : Registry) (cid : Nat) :
    registryContains reg cid = false ↔ cid ∉ List.map Prod.fst reg := by
  simp [registryContains]

theorem runAnalysis_ok (prog : List (Nat × AstClause)) : ∀ (g : Nat) (reg : Registry),
    (∀ cid ∈ prog.map Prod.fst, registryContains reg cid = false) →
    (prog.map Prod.fst).Nodup →
    ∃ (reg' : Registry) (g' : Nat),
      runAnalysis g reg prog = Except.ok (reg', g') ∧
      reg'.map Prod.fst = reg.map Prod.fst ++ prog.map Prod.fst := by
  cases prog with
  | nil =>
      intro g reg _ _
      exact ⟨reg, g, rfl, by simp⟩
  | cons p rest =>
      intro g reg hfresh hnodup
      obtain ⟨cid, c⟩ := p
      have hne : registryContains reg cid = false := hfresh cid (by simp)
      have hfresh' : ∀ cid' ∈ rest.map Prod.fst,
          registryContains (reg ++ [(cid, normClause g c)]) cid' = false := by
        intro cid' hmem
        rw [registryContains_false_iff]
        intro hc
        rw [List.map_append, List.mem_append] at hc
        rcases hc with hc | hc
        · exact (registryContains_false_iff reg cid').mp
            (hfresh cid' (by simp [hmem])) hc
        · simp only [List.map_cons, List.map_nil, List.mem_singleton] at hc
          rw [List.map_cons, List.nodup_cons] at hnodup
          exact hnodup.1 (hc ▸ hmem)
      have hnodup' : (rest.map Prod.fst).Nodup := by
        rw [List.map_cons, List.nodup_cons] at hnodup
        exact hnodup.2
      obtain ⟨reg', g', hrun, hkeys⟩ := runAnalysis_ok rest
        (normClause g c).countUnnamed (reg ++ [(cid, normClause g c)])
        hfresh' hnodup'
      refine ⟨reg', g', ?_, ?_⟩
      · show (if registryContains reg cid then Except.error ()
          else runAnalysis (normClause g c).countUnnamed
            (List.append reg [(cid, normClause g c)]) rest) = _
        rw [hne]
        simpa using hrun
      · rw [hkeys]
        simp

theorem runAnalysis_error_head (g : Nat) (reg : Registry) (cid : Nat)
    (c : AstClause) (rest : List (Nat × AstClause))
    (h : registryContains reg cid = true) :
    runAnalysis g reg ((cid, c) :: rest) = Except.error () := by
  show (if registryContains reg cid then Except.error ()
    else runAnalysis (normClause g c).countUnnamed
      (reg ++ [(cid, normClause g c)]) rest) = _
  rw [h]
  simp

/-- Claim C9 fails as stated on the empty translation unit: the first run
stores nothing, and a second run walks an empty clause list, so the
clause-already-processed assertion never fires and the re-run succeeds
instead of being caught. -/
theorem c9_counterexample_empty_rerun :
    runAnalysis 0 [] ([] : List (Nat × AstClause)) = Except.ok ([], 0) ∧
    ¬ runAnalysis 0 [] ([] : List (Nat × AstClause)) = Except.error () := by
  constructor
  · rfl
  · intro h
    simp [runAnalysis] at h

/-- Claim C9 (amended): on a program whose clause identities are distinct,
`run` stores exactly one `NormalisedClause` per clause identity (the
registry's keys are the program's clause identities); and re-running on
the same translation unit hits the clause-already-processed assertion
whenever the program has at least one clause. -/
theorem c9_registry_run (g : Nat) (prog : List (Nat × AstClause))
    (hnodup : (prog.map Prod.fst).Nodup) :
    ∃ (reg : Registry) (g' : Nat),
      runAnalysis g [] prog = Except.ok (reg, g') ∧
      List.map Prod.fst reg = List.map Prod.fst prog ∧
      (prog ≠ [] → runAnalysis g' reg prog = Except.error ()) := by
  obtain ⟨reg, g', hrun, hkeys⟩ := runAnalysis_ok prog g []
    (fun cid _ => by simp [registryContains]) hnodup
  rw [List.map_nil, List.nil_append] at hkeys
  refine ⟨reg, g', hrun, hkeys, ?_⟩
  intro hne
  cases prog with
  | nil => exact absurd rfl hne
  | cons p rest =>
      obtain ⟨cid, c⟩ := p
      apply runAnalysis_error_head
      rw [registryContains, decide_eq_true_eq, hkeys]
      simp

/-- Witness for claim C9's amended theorem on a two-clause program. -/
theorem c9_witness_two_clauses :
    ∃ (reg : Registry) (g' : Nat),
      runAnalysis 0 [] [(0, clauseRxSx), (1, clauseRxSx)] = Except.ok (reg, g') ∧
      List.map Prod.fst reg = List.map Prod.fst [(0, clauseRxSx), (1, clauseRxSx)] ∧
      ([(0, clauseRxSx), (1, clauseRxSx)] ≠ ([] : List (Nat × AstClause)) →
        runAnalysis g' reg [(0, clauseRxSx), (1, clauseRxSx)] = Except.error ()) :=
  c9_registry_run 0 [(0, clauseRxSx), (1, clauseRxSx)] (by decide)

/-- Claim C10: provided no source variable name starts with `@min:`, every
member of the constants set starts with `@min:cst:`, every member of the
variables set is a raw variable name occurring in the clause, an
unnamed-variable token `"@min:unnamed:" ++ k`, or a scope token
`"@min:scope:" ++ j` with `j ≥ 1`, and the two sets are disjoint. -/
theorem c10_token_classification (g : Nat) (c : AstClause)
    (h : ∀ v ∈ clauseVarNames c, strStartsWith "@min:" v = false) :
    (∀ t ∈ (normClause g c).constants, strStartsWith "@min:cst:" t = true) ∧
    (∀ t ∈ (normClause g c).varSet,
      t ∈ clauseVarNames c ∨ (∃ k, t = unnamedTok k) ∨
        ∃ j, 1 ≤ j ∧ t = scopeTok j) ∧
    (∀ t ∈ (normClause g c).constants, t ∉ (normClause g c).varSet) := by
  have hinitc : (initNormState g).constants = [] := rfl
  have hinitv : (initNormState g).varSet = [] := rfl
  have hconst : ∀ t ∈ (normClause g c).constants,
      strStartsWith "@min:cst:" t = true := by
    intro t ht
    rcases cstForm_addBodyLiterals c.body "@min:scope:0"
      (pushElem ⟨["@min:head"], (normaliseArgList (initNormState g) c.headArgs).2⟩
        (normaliseArgList (initNormState g) c.headArgs).1) t ht with h1 | h1
    · rw [pushElem_constants] at h1
      rcases cstForm_normaliseArgList c.headArgs (initNormState g) t h1 with h2 | h2
      · rw [hinitc] at h2
        exact absurd h2 (by simp)
      · exact h2
    · exact h1
  have hvar : ∀ t ∈ (normClause g c).varSet,
      t ∈ clauseVarNames c ∨ (∃ k, t = unnamedTok k) ∨
        ∃ j, 1 ≤ j ∧ t = scopeTok j := by
    intro t ht
    rcases varForm_addBodyLiterals c.body "@min:scope:0"
      (pushElem ⟨["@min:head"], (normaliseArgList (initNormState g) c.headArgs).2⟩
        (normaliseArgList (initNormState g) c.headArgs).1) t ht with h1 | h1
    · rw [pushElem_varSet] at h1
      rcases varForm_normaliseArgList c.headArgs (initNormState g) t h1 with h2 | h2
      · rw [hinitv] at h2
        exact absurd h2 (by simp)
      · rcases h2 with h3 | h3
        · refine Or.inl ?_
          rw [clauseVarNames, List.mem_append]
          exact Or.inl h3
        · exact Or.inr h3
    · rcases h1 with h3 | h3
      · refine Or.inl ?_
        rw [clauseVarNames, List.mem_append]
        exact Or.inr h3
      · exact Or.inr h3
  refine ⟨hconst, hvar, ?_⟩
  intro t htc htv
  have hpre := hconst t htc
  rcases hvar t htv with h1 | h1 | h1
  · have hmin : strStartsWith "@min:" t = true :=
      strStartsWith_trans (by decide) hpre
    rw [h t h1] at hmin
    exact Bool.noConfusion hmin
  · obtain ⟨k, rfl⟩ := h1
    have hne : strStartsWith "@min:cst:" (unnamedTok k) = false := by
      show strStartsWith "@min:cst:" ("@min:unnamed:" ++ Nat.repr k) = false
      exact strStartsWith_append_of_not (Nat.repr k) (by decide) (by decide)
    rw [hne] at hpre
    exact Bool.noConfusion hpre
  · obtain ⟨j, hj, rfl⟩ := h1
    have hne : strStartsWith "@min:cst:" (scopeTok j) = false := by
      show strStartsWith "@min:cst:" ("@min:scope:" ++ Nat.repr j) = false
      exact strStartsWith_append_of_not (Nat.repr j) (by decide) (by decide)
    rw [hne] at hpre
    exact Bool.noConfusion hpre

/-- Witness for claim C10 at `g = 0` and `R(Y) :- Y = count : { S(X) }.`,
whose variable names `Y` and `X` do not start with `@min:`. -/
theorem c10_witness_example :
    (∀ t ∈ (normClause 0 clauseAggCount).constants,
      strStartsWith "@min:cst:" t = true) ∧
    (∀ t ∈ (normClause 0 clauseAggCount).varSet,
      t ∈ clauseVarNames clauseAggCount ∨ (∃ k, t = unnamedTok k) ∨
        ∃ j, 1 ≤ j ∧ t = scopeTok j) ∧
    (∀ t ∈ (normClause 0 clauseAggCount).constants,
      t ∉ (normClause 0 clauseAggCount).varSet) :=
  c10_token_classification 0 clauseAggCount (by decide)

/-- Witness for claim C8: a state whose flag is already `false` keeps it
`false` through a further normalisation step. -/
theorem c8_witness_false_propagates :
    (normaliseArgument ⟨false, 0, [], [], [], 0⟩
      AstArgument.nilConstant).1.fullyNormalised = false :=
  c8_fully_normalised_sticky.2.1 ⟨false, 0, [], [], [], 0⟩
    AstArgument.nilConstant rfl

end Souffle
